import Mathlib

/-!
Verification of `refactor_icons.py`, a one-shot rewriter that replaces bulk
imports from `@tabler/icons-react` with per-symbol default imports.

File contents are modelled as `List Char`.  The regular expression

  `import\s+\{([^}]+)\}\s+from\s+['"]@tabler/icons-react['"];?`

is embedded as the function `matchAt` below; its backtracking is
deterministic for this pattern (each greedy piece is followed by a character
it can never consume), so `matchAt` implements maximal-munch directly.
Python's `\s` on `str` patterns and `str.strip()` use the same whitespace
class (the code points whose `str.isspace()` is true); `pySpace` lists that
class in full.  Exceptions (the tuple-unpacking `ValueError` that
`icon.split(' as ')` can raise) are modelled with `Except Unit`.
-/

set_option maxRecDepth 4000

/-- The characters matched by Python's `\s` on a `str` pattern and stripped
by `str.strip()`: the code points whose `str.isspace()` is true.  These are
tab through carriage return (9-13), space (32), the file, group, record and
unit separators (28-31), next line (0x85), no-break space (0xa0), Ogham
space mark (0x1680), the en-quad through hair-space run (0x2000-0x200a),
the line and paragraph separators (0x2028, 0x2029), narrow no-break space
(0x202f), medium mathematical space (0x205f) and ideographic space
(0x3000). -/
def pySpace (c : Char) : Bool :=
  (9 ≤ c.toNat && c.toNat ≤ 13) || c.toNat = 32
    || (28 ≤ c.toNat && c.toNat ≤ 31) || c.toNat = 0x85 || c.toNat = 0xa0
    || c.toNat = 0x1680 || (0x2000 ≤ c.toNat && c.toNat ≤ 0x200a)
    || c.toNat = 0x2028 || c.toNat = 0x2029 || c.toNat = 0x202f
    || c.toNat = 0x205f || c.toNat = 0x3000

/-- Opening brace character. -/
def obr : Char := '\x7b'

/-- Closing brace character. -/
def cbr : Char := '\x7d'

/-- Single-quote character. -/
def sqc : Char := '\''

/-- Double-quote character. -/
def dqc : Char := '"'

/-- Newline, the separator of the joined replacement lines. -/
def nlc : Char := '\n'

/-- The literal `import` that opens a matched statement. -/
def importLit : List Char := ['i', 'm', 'p', 'o', 'r', 't']

/-- The literal `from`. -/
def fromLit : List Char := ['f', 'r', 'o', 'm']

/-- The fixed package name of the pattern. -/
def pkgLit : List Char :=
  ['@', 't', 'a', 'b', 'l', 'e', 'r', '/', 'i', 'c', 'o', 'n', 's', '-', 'r', 'e', 'a', 'c', 't']

/-- Consume an exact literal prefix. -/
def expectLit (lit s : List Char) : Option (List Char) :=
  if lit.isPrefixOf s then some (s.drop lit.length) else none

/-- Consume `\s+`: at least one whitespace character, maximal munch. -/
def expectSpaces : List Char → Option (List Char)
  | [] => none
  | c :: cs => if pySpace c then some (cs.dropWhile pySpace) else none

/-- Consume one fixed character. -/
def expectChar (c : Char) : List Char → Option (List Char)
  | [] => none
  | d :: r => if d = c then some r else none

/-- Consume one quote character, `['"]`. -/
def expectQuote : List Char → Option (List Char)
  | [] => none
  | d :: r => if d = sqc || d = dqc then some r else none

/-- Consume `;?`: a greedy optional semicolon. -/
def expectSemi : List Char → List Char
  | ';' :: r => r
  | s => s

/-- The character class `[^}]` of the capture group. -/
def notBrace (c : Char) : Bool := !(c = cbr : Bool)

/-- Consume `([^}]+)`: the greedy non-empty run of non-`}` characters. -/
def expectGroup (s : List Char) : Option (List Char × List Char) :=
  if (s.takeWhile notBrace).isEmpty then none
  else some (s.takeWhile notBrace, s.dropWhile notBrace)

/-- Attempt the full pattern at the head of `s`.  On success, return the
captured group (the raw symbol list between the braces) and the rest of the
input after the match. -/
def matchAt (s : List Char) : Option (List Char × List Char) := do
  let s1 ← expectLit importLit s
  let s2 ← expectSpaces s1
  let s3 ← expectChar obr s2
  let (g, s4) ← expectGroup s3
  let s5 ← expectChar cbr s4
  let s6 ← expectSpaces s5
  let s7 ← expectLit fromLit s6
  let s8 ← expectSpaces s7
  let s9 ← expectQuote s8
  let s10 ← expectLit pkgLit s9
  let s11 ← expectQuote s10
  pure (g, expectSemi s11)

/-- One scanning pass of `finditer`: try the pattern at every position, left
to right; after a match continue right after it.  Each reported triple is
(start offset, end offset, captured group). -/
def findAux : Nat → List Char → Nat → List (Nat × Nat × List Char)
  | 0, _, _ => []
  | _ + 1, [], _ => []
  | f + 1, c :: cs, pos =>
    match matchAt (c :: cs) with
    | some (g, rest) =>
      let len := (c :: cs).length - rest.length
      (pos, pos + len, g) :: findAux f rest (pos + len)
    | none => findAux f cs (pos + 1)

/-- All matches of the pattern in `content`, in document order. -/
def findMatches (content : List Char) : List (Nat × Nat × List Char) :=
  findAux content.length content 0

/-- Python `str.split(sep)` for a non-empty separator `sh :: st`:
leftmost, non-overlapping. `acc` is the current piece, reversed.  The fuel
argument only makes the recursion structural: each step consumes at least
one character, so fuel `s.length` never runs out. -/
def pySplitAux (sh : Char) (st : List Char) : Nat → List Char → List Char → List (List Char)
  | _, [], acc => [acc.reverse]
  | 0, _ :: _, acc => [acc.reverse]
  | f + 1, c :: cs, acc =>
    if (sh :: st).isPrefixOf (c :: cs) then
      acc.reverse :: pySplitAux sh st f (cs.drop st.length) []
    else
      pySplitAux sh st f cs (c :: acc)

/-- Python `str.split(sep)`; an empty separator is never used by the code. -/
def pySplit (sep s : List Char) : List (List Char) :=
  match sep with
  | [] => [s]
  | sh :: st => pySplitAux sh st s.length s []

/-- Python's substring test `sep in s`. -/
def containsSub (sep : List Char) : List Char → Bool
  | [] => sep.isPrefixOf []
  | c :: cs => sep.isPrefixOf (c :: cs) || containsSub sep cs

/-- Python `str.strip()`: drop leading and trailing whitespace. -/
def pyStrip (s : List Char) : List Char :=
  (((s.dropWhile pySpace).reverse).dropWhile pySpace).reverse

/-- Lines 20-21 of the source: split the captured group on commas, strip each
piece, keep the non-empty ones. -/
def parseIcons (block : List Char) : List (List Char) :=
  ((pySplit [','] block).map pyStrip).filter (fun i => !(i = [] : Bool))

/-- The separator of an alias clause, the literal `" as "`. -/
def sepAs : List Char := " as ".toList

/-- The fixed text `import ` that opens a replacement line. -/
def importSpace : List Char := ['i', 'm', 'p', 'o', 'r', 't', ' ']

/-- The fixed text ` from '` between the binding name and the module path. -/
def fromQuote : List Char := [' ', 'f', 'r', 'o', 'm', ' ', sqc]

/-- The fixed text `.mjs';` that closes a replacement line. -/
def mjsEnd : List Char := ['.', 'm', 'j', 's', sqc, ';']

/-- One replacement line `import <bind> from '@tabler/icons-react<orig>.mjs';`
exactly as the f-strings on lines 29 and 31 build it: note there is no `/`
between the package name and the icon name. -/
def mkLine (bind orig : List Char) : List Char :=
  importSpace ++ bind ++ fromQuote ++ pkgLit ++ orig ++ mjsEnd

/-- Lines 24-31 of the source, for one icon piece.  `icon.split(' as ')`
unpacked into two variables raises `ValueError` unless it yields exactly two
parts; that exception is the `.error` case. -/
def renderIcon (icon : List Char) : Except Unit (List Char) :=
  if containsSub sepAs icon then
    match pySplit sepAs icon with
    | [orig, al] => .ok (mkLine (pyStrip al) (pyStrip orig))
    | _ => .error ()
  else
    .ok (mkLine icon icon)

/-- Render every icon of one match, left to right, stopping at the first
exception. -/
def renderAll : List (List Char) → Except Unit (List (List Char))
  | [] => .ok []
  | i :: is =>
    match renderIcon i, renderAll is with
    | .ok l, .ok ls => .ok (l :: ls)
    | .error u, _ => .error u
    | _, .error u => .error u

/-- Python `sep.join(lines)`. -/
def pyJoin (sep : List Char) : List (List Char) → List Char
  | [] => []
  | [l] => l
  | l :: ls => l ++ sep ++ pyJoin sep ls

/-- The replacement block of one match: rendered lines joined by newlines. -/
def renderBlock (g : List Char) : Except Unit (List Char) :=
  match renderAll (parseIcons g) with
  | .ok ls => .ok (pyJoin [nlc] ls)
  | .error u => .error u

/-- Line 33 of the source: splice a replacement over the span `[s, e)`. -/
def spliceOne (cur : List Char) (s e : Nat) (r : List Char) : List Char :=
  cur.take s ++ r ++ cur.drop e

/-- The loop on lines 17-33: process the given matches in the given order
(the caller passes the reversed match list), splicing each replacement at
its original offsets. -/
def applyRev : List Char → List (Nat × Nat × List Char) → Except Unit (List Char)
  | cur, [] => .ok cur
  | cur, (s, e, g) :: ms =>
    match renderBlock g with
    | .error u => .error u
    | .ok r => applyRev (spliceOne cur s e r) ms

/-- The pure content transformation of `refactor_icons`: the new content, or
the propagated exception. -/
def refactorContent (content : List Char) : Except Unit (List Char) :=
  match findMatches content with
  | [] => .ok content
  | ms => applyRev content ms.reverse

/-- `refactor_icons` as observed by the caller: the rewritten content plus
the `changed` flag it returns (lines 13-14 and 35-39; `changed` is whether
the spliced content differs from the original). -/
def refactorIcons (content : List Char) : Except Unit (List Char × Bool) :=
  match refactorContent content with
  | .ok new => .ok (new, decide (new ≠ content))
  | .error u => .error u

/-- Python `str.endswith(suffix)`. -/
def pyEndsWith (suffix s : List Char) : Bool :=
  suffix.isSuffixOf s

/-- Line 44 of the source: a file name qualifies iff it ends in `.tsx` or
`.ts`. -/
def isCandidate (name : List Char) : Bool :=
  pyEndsWith ".tsx".toList name || pyEndsWith ".ts".toList name

/-- One file of the traversal: its joined path, its bare name (the extension
filter looks at the name, the report prints the path) and its content. -/
structure SrcFile where
  path : List Char
  name : List Char
  content : List Char

/-- The per-file report line `Refactored <path>`. -/
def refLine (path : List Char) : List Char :=
  "Refactored ".toList ++ path

/-- The summary line `Total refactored: <count>`. -/
def totalLine (n : Nat) : List Char :=
  "Total refactored: ".toList ++ (Nat.repr n).toList

/-- The driver loop, lines 41-48: walk the files in traversal order, rewrite
each candidate, print one line per changed file and count it.  An exception
from `refactor_icons` aborts the run. -/
def driveAux : List SrcFile → List (List Char) → Nat → Except Unit (List (List Char) × Nat)
  | [], out, n => .ok (out, n)
  | f :: fs, out, n =>
    if isCandidate f.name then
      match refactorIcons f.content with
      | .error u => .error u
      | .ok (_, true) => driveAux fs (out ++ [refLine f.path]) (n + 1)
      | .ok (_, false) => driveAux fs out n
    else
      driveAux fs out n

/-- The whole program, line 41 to line 49: the full standard output (the
`Refactored` lines then the `Total refactored` line) and the final count. -/
def drive (files : List SrcFile) : Except Unit (List (List Char) × Nat) :=
  match driveAux files [] 0 with
  | .ok (out, n) => .ok (out ++ [totalLine n], n)
  | .error u => .error u

/-- A bulk import statement assembled from its parts: whitespace runs `w1 w2
w3`, the raw symbol list `sym`, a package literal `pkg`, quote characters
`q1 q2` and an optional trailing semicolon. -/
def mkStmt (w1 w2 w3 sym pkg : List Char) (q1 q2 : Char) (semi : Bool) : List Char :=
  importLit ++ (w1 ++ (obr :: (sym ++ (cbr :: (w2 ++ (fromLit ++ (w3 ++ (q1 ::
    (pkg ++ (q2 :: (if semi then [';'] else [])))))))))))

/-- The offsets of a match list are in range and chained: each match's span
lies inside `[lo, hi)` and ends before the next one starts. -/
def Chained : Nat → Nat → List (Nat × Nat × List Char) → Prop
  | _, _, [] => True
  | lo, hi, (a, b, _) :: rest => lo ≤ a ∧ a < b ∧ b ≤ hi ∧ Chained b hi rest

/-- The `changed` flag `refactor_icons` reports for one content (`false`
when it raises, a case the driver never reaches). -/
def changedOf (content : List Char) : Bool :=
  match refactorIcons content with
  | .ok (_, b) => b
  | .error _ => false

/-- The files the driver rewrites and reports: candidates whose rewrite
reports a change. -/
def modifiedFiles (files : List SrcFile) : List SrcFile :=
  files.filter (fun f => isCandidate f.name && changedOf f.content)

/-- Run the rewrite a second time, on the content produced by a first run,
and report the second run's `changed` flag. -/
def secondChanged (x : Except Unit (List Char × Bool)) : Except Unit Bool :=
  match x with
  | .ok (c, _) =>
    match refactorIcons c with
    | .ok (_, b) => .ok b
    | .error u => .error u
  | .error u => .error u

/-- The concrete scenario line of the specification:
`import ... IconHome, IconUser as UserIcon ... from '@tabler/icons-react';`
with the symbol list in braces. -/
def scenarioInput : List Char :=
  mkStmt [' '] [' '] [' '] " IconHome, IconUser as UserIcon ".toList pkgLit sqc sqc true

/-- What the code actually produces on `scenarioInput`: two per-symbol lines
whose module paths lack the `/` separator after the package name. -/
def scenarioActual : List Char :=
  mkLine "IconHome".toList "IconHome".toList ++ [nlc]
    ++ mkLine "UserIcon".toList "IconUser".toList

/-- The output the specification requires for `scenarioInput`: per-icon
module paths with a `/` between the package name and the icon file. -/
def scenarioClaimed : List Char :=
  ("import IconHome from '@tabler/icons-react/IconHome.mjs';\n"
    ++ "import UserIcon from '@tabler/icons-react/IconUser.mjs';").toList

/-- A statement whose symbol piece contains the separator ` as ` twice:
`icon.split(' as ')` yields three parts and the two-variable unpacking
raises `ValueError`. -/
def doubleAliasContent : List Char :=
  mkStmt [' '] [' '] [' '] " A as B as C ".toList pkgLit sqc sqc true

/-- Content that refutes round-trip idempotence: the symbol list contains an
opening brace, so the rewritten line recombines with the surrounding text
into a fresh qualifying statement. -/
def braceTrickContent : List Char :=
  ("import \x7b \x7bA \x7d from '@tabler/icons-react';Z\x7d from '@tabler/icons-react';").toList

/-- Content holding two qualifying statements, an earlier and a later one,
used to exercise offset safety on a concrete input. -/
def twoImportContent : List Char :=
  ("const x = 1;\nimport \x7b\n  IconA,\n  IconB,\n\x7d from \"@tabler/icons-react\"\nlet y = 2;\n"
    ++ "import \x7b IconC \x7d from '@tabler/icons-react';\n").toList

/-- A demonstration traversal for the driver: a changed candidate, a
non-candidate, and an unchanged candidate. -/
def demoFiles : List SrcFile :=
  [⟨"ui/src/a.tsx".toList, "a.tsx".toList, scenarioInput⟩,
   ⟨"ui/src/b.txt".toList, "b.txt".toList, scenarioInput⟩,
   ⟨"ui/src/c.ts".toList, "c.ts".toList, "const c = 3;".toList⟩]

/-! ### Lemmas about the single-step consumers -/

theorem expectLit_append (lit r : List Char) : expectLit lit (lit ++ r) = some r := by
  simp [expectLit]

theorem expectLit_eq {lit s r : List Char} (h : expectLit lit s = some r) : s = lit ++ r := by
  unfold expectLit at h
  split at h
  · rename_i hp
    rw [List.isPrefixOf_iff_prefix] at hp
    obtain ⟨t, ht⟩ := hp
    cases h
    rw [← ht, List.drop_left]
  · exact absurd h (by simp)

theorem expectLit_length {lit s r : List Char} (h : expectLit lit s = some r) :
    s.length = lit.length + r.length := by
  rw [expectLit_eq h, List.length_append]

theorem dropWhile_spaces_append {w r : List Char} (hw : ∀ c ∈ w, pySpace c = true)
    (hr : ∀ c, r.head? = some c → pySpace c = false) :
    (w ++ r).dropWhile pySpace = r := by
  induction w with
  | nil =>
    cases r with
    | nil => rfl
    | cons c cs =>
      rw [List.nil_append, List.dropWhile_cons, if_neg (by simp [hr c rfl])]
  | cons c cs ih =>
    rw [List.cons_append, List.dropWhile_cons, if_pos (hw c (by simp))]
    exact ih (fun d hd => hw d (List.mem_cons_of_mem c hd))

theorem expectSpaces_append {w r : List Char} (hne : w ≠ [])
    (hw : ∀ c ∈ w, pySpace c = true)
    (hr : ∀ c, r.head? = some c → pySpace c = false) :
    expectSpaces (w ++ r) = some r := by
  cases w with
  | nil => exact absurd rfl hne
  | cons c cs =>
    simp only [List.cons_append, expectSpaces, hw c (by simp), if_true]
    rw [dropWhile_spaces_append (fun d hd => hw d (by simp [hd])) hr]

theorem expectSpaces_sublist {s r : List Char} (h : expectSpaces s = some r) :
    r.length < s.length ∧ List.Sublist r s := by
  cases s with
  | nil => simp [expectSpaces] at h
  | cons c cs =>
    simp only [expectSpaces] at h
    split at h
    · cases h
      have hsub : List.Sublist (cs.dropWhile pySpace) cs := List.dropWhile_sublist pySpace
      refine ⟨?_, hsub.trans (List.sublist_cons_self c cs)⟩
      have := hsub.length_le
      simp only [List.length_cons]
      omega
    · exact absurd h (by simp)

theorem expectChar_cons (c : Char) (r : List Char) : expectChar c (c :: r) = some r := by
  simp [expectChar]

theorem expectChar_eq {c : Char} {s r : List Char} (h : expectChar c s = some r) :
    s = c :: r := by
  cases s with
  | nil => simp [expectChar] at h
  | cons d ds =>
    simp only [expectChar] at h
    split at h
    · cases h; rename_i hd; rw [hd]
    · exact absurd h (by simp)

theorem expectQuote_cons {q : Char} (r : List Char) (hq : q = sqc ∨ q = dqc) :
    expectQuote (q :: r) = some r := by
  rcases hq with hq | hq <;> simp [expectQuote, hq]

theorem expectQuote_eq {s r : List Char} (h : expectQuote s = some r) :
    ∃ q, s = q :: r ∧ (q = sqc ∨ q = dqc) := by
  cases s with
  | nil => simp [expectQuote] at h
  | cons d ds =>
    simp only [expectQuote] at h
    split at h
    · cases h
      rename_i hd
      exact ⟨d, rfl, by simpa using hd⟩
    · exact absurd h (by simp)

theorem expectSemi_length (s : List Char) : (expectSemi s).length ≤ s.length := by
  unfold expectSemi
  split
  · simp
  · exact Nat.le_refl _

theorem expectSemi_sublist (s : List Char) : List.Sublist (expectSemi s) s := by
  unfold expectSemi
  split
  · exact List.sublist_cons_self _ _
  · exact List.Sublist.refl _

theorem expectGroup_eq {s : List Char} {g s4 : List Char}
    (h : expectGroup s = some (g, s4)) :
    g = s.takeWhile notBrace ∧ g ≠ [] ∧ s4 = s.dropWhile notBrace := by
  unfold expectGroup at h
  split at h
  · exact absurd h (by simp)
  · rename_i hne
    cases h
    exact ⟨rfl, by simpa [List.isEmpty_iff] using hne, rfl⟩

theorem takeWhile_notBrace_append {sym : List Char} (rest : List Char)
    (hs : ∀ c ∈ sym, c ≠ cbr) :
    (sym ++ cbr :: rest).takeWhile notBrace = sym := by
  induction sym with
  | nil =>
    rw [List.nil_append, List.takeWhile_cons, if_neg (by simp [notBrace])]
  | cons c cs ih =>
    rw [List.cons_append, List.takeWhile_cons,
      if_pos (by simp [notBrace, hs c (by simp)]),
      ih (fun d hd => hs d (List.mem_cons_of_mem c hd))]

theorem dropWhile_notBrace_append {sym : List Char} (rest : List Char)
    (hs : ∀ c ∈ sym, c ≠ cbr) :
    (sym ++ cbr :: rest).dropWhile notBrace = cbr :: rest := by
  induction sym with
  | nil =>
    rw [List.nil_append, List.dropWhile_cons, if_neg (by simp [notBrace])]
  | cons c cs ih =>
    rw [List.cons_append, List.dropWhile_cons,
      if_pos (by simp [notBrace, hs c (by simp)])]
    exact ih (fun d hd => hs d (List.mem_cons_of_mem c hd))

theorem expectGroup_append {sym rest : List Char} (hne : sym ≠ [])
    (hs : ∀ c ∈ sym, c ≠ cbr) :
    expectGroup (sym ++ cbr :: rest) = some (sym, cbr :: rest) := by
  unfold expectGroup
  rw [takeWhile_notBrace_append rest hs, dropWhile_notBrace_append rest hs,
    if_neg (by simpa [List.isEmpty_iff] using hne)]

/-! ### Structure of a successful match -/

theorem matchAt_some_elim {s g rest : List Char}
    (h : matchAt s = some (g, rest)) :
    ∃ s1 s2 s3 s4 s5 s6 s7 s8 s9 s10 s11,
      expectLit importLit s = some s1 ∧ expectSpaces s1 = some s2 ∧
      expectChar obr s2 = some s3 ∧ expectGroup s3 = some (g, s4) ∧
      expectChar cbr s4 = some s5 ∧ expectSpaces s5 = some s6 ∧
      expectLit fromLit s6 = some s7 ∧ expectSpaces s7 = some s8 ∧
      expectQuote s8 = some s9 ∧ expectLit pkgLit s9 = some s10 ∧
      expectQuote s10 = some s11 ∧ rest = expectSemi s11 := by
  simp only [matchAt, Option.bind_eq_bind, Option.bind_eq_some, Option.pure_def,
    Option.some.injEq, Prod.mk.injEq] at h
  obtain ⟨s1, h1, s2, h2, s3, h3, ⟨g', s4⟩, h4, s5, h5, s6, h6, s7, h7, s8, h8,
    s9, h9, s10, h10, s11, h11, hg, hrest⟩ := h
  subst hg
  exact ⟨s1, s2, s3, s4, s5, s6, s7, s8, s9, s10, s11,
    h1, h2, h3, h4, h5, h6, h7, h8, h9, h10, h11, hrest.symm⟩

theorem matchAt_consumes {s g rest : List Char} (h : matchAt s = some (g, rest)) :
    rest.length < s.length := by
  obtain ⟨s1, s2, s3, s4, s5, s6, s7, s8, s9, s10, s11,
    h1, h2, h3, h4, h5, h6, h7, h8, h9, h10, h11, hrest⟩ := matchAt_some_elim h
  have l1 := expectLit_length h1
  have l2 := (expectSpaces_sublist h2).1
  have l3 : s2.length = s3.length + 1 := by rw [expectChar_eq h3]; rfl
  have l4 : s4.length ≤ s3.length := by
    rw [(expectGroup_eq h4).2.2]
    exact (List.dropWhile_sublist notBrace).length_le
  have l5 : s4.length = s5.length + 1 := by rw [expectChar_eq h5]; rfl
  have l6 := (expectSpaces_sublist h6).1
  have l7 := expectLit_length h7
  have l8 := (expectSpaces_sublist h8).1
  have l9 : s8.length = s9.length + 1 := by
    obtain ⟨q, hq, _⟩ := expectQuote_eq h9
    rw [hq]; rfl
  have l10 := expectLit_length h10
  have l11 : s10.length = s11.length + 1 := by
    obtain ⟨q, hq, _⟩ := expectQuote_eq h11
    rw [hq]; rfl
  have l12 : rest.length ≤ s11.length := by rw [hrest]; exact expectSemi_length s11
  simp only [importLit, fromLit, pkgLit, List.length_cons, List.length_nil] at l1 l7 l10
  omega

theorem matchAt_has_cbr {s g rest : List Char} (h : matchAt s = some (g, rest)) :
    cbr ∈ s := by
  obtain ⟨s1, s2, s3, s4, s5, _, _, _, _, _, _,
    h1, h2, h3, h4, h5, _, _, _, _, _, _, _⟩ := matchAt_some_elim h
  have hs4 : cbr ∈ s4 := by rw [expectChar_eq h5]; simp
  have hs3 : cbr ∈ s3 := by
    rw [(expectGroup_eq h4).2.2] at hs4
    exact (List.dropWhile_sublist notBrace).mem hs4
  have hs2 : cbr ∈ s2 := by
    rw [expectChar_eq h3]
    exact List.mem_cons_of_mem obr hs3
  have hs1 : cbr ∈ s1 := ((expectSpaces_sublist h2).2).mem hs2
  rw [expectLit_eq h1]
  exact List.mem_append_right _ hs1

theorem matchAt_group_no_cbr {s g rest : List Char}
    (h : matchAt s = some (g, rest)) : ∀ c ∈ g, c ≠ cbr := by
  obtain ⟨_, _, s3, _, _, _, _, _, _, _, _,
    _, _, _, h4, _, _, _, _, _, _, _, _⟩ := matchAt_some_elim h
  intro c hc
  rw [(expectGroup_eq h4).1] at hc
  have := List.mem_takeWhile_imp hc
  simpa [notBrace] using this

theorem matchAt_nil : matchAt [] = none := rfl

/-! ### The scanning pass -/

theorem findAux_nil (f pos : Nat) : findAux f [] pos = [] := by
  cases f <;> rfl

theorem Chained_mono_lo {lo lo' hi : Nat} {ms : List (Nat × Nat × List Char)}
    (h : lo' ≤ lo) (hc : Chained lo hi ms) : Chained lo' hi ms := by
  cases ms with
  | nil => trivial
  | cons m rest =>
    obtain ⟨a, b, g⟩ := m
    obtain ⟨h1, h2, h3, h4⟩ := hc
    exact ⟨Nat.le_trans h h1, h2, h3, h4⟩

theorem findAux_chained :
    ∀ (f : Nat) (s : List Char) (pos : Nat), s.length ≤ f →
      Chained pos (pos + s.length) (findAux f s pos) := by
  intro f
  induction f with
  | zero =>
    intro s pos _
    show Chained pos (pos + s.length) []
    trivial
  | succ f ih =>
    intro s pos hf
    cases s with
    | nil =>
      rw [findAux_nil]
      trivial
    | cons c cs =>
      rw [findAux]
      cases hm : matchAt (c :: cs) with
      | none =>
        have hrec := ih cs (pos + 1) (by simp only [List.length_cons] at hf; omega)
        have heq : pos + 1 + cs.length = pos + (c :: cs).length := by
          simp only [List.length_cons]; omega
        rw [heq] at hrec
        exact Chained_mono_lo (Nat.le_succ pos) hrec
      | some gr =>
        obtain ⟨g, rest⟩ := gr
        have hcons := matchAt_consumes hm
        show pos ≤ pos ∧ pos < pos + ((c :: cs).length - rest.length) ∧
          pos + ((c :: cs).length - rest.length) ≤ pos + (c :: cs).length ∧
          Chained (pos + ((c :: cs).length - rest.length)) (pos + (c :: cs).length)
            (findAux f rest (pos + ((c :: cs).length - rest.length)))
        refine ⟨Nat.le_refl _, by omega, by omega, ?_⟩
        have hrec := ih rest (pos + ((c :: cs).length - rest.length)) (by omega)
        have heq : pos + ((c :: cs).length - rest.length) + rest.length
            = pos + (c :: cs).length := by omega
        rw [heq] at hrec
        exact hrec

theorem findMatches_chained (content : List Char) :
    Chained 0 content.length (findMatches content) := by
  have := findAux_chained content.length content 0 (Nat.le_refl _)
  simpa using this

theorem findMatches_single {s g : List Char} (h : matchAt s = some (g, [])) :
    findMatches s = [(0, s.length, g)] := by
  cases s with
  | nil => rw [matchAt_nil] at h; exact absurd h (by simp)
  | cons c cs =>
    show findAux (c :: cs).length (c :: cs) 0 = _
    rw [List.length_cons, findAux, h]
    simp [findAux_nil]

theorem findAux_no_cbr :
    ∀ (f : Nat) (s : List Char) (pos : Nat), (∀ c ∈ s, c ≠ cbr) →
      findAux f s pos = [] := by
  intro f
  induction f with
  | zero => intro s pos _; rfl
  | succ f ih =>
    intro s pos hs
    cases s with
    | nil => rw [findAux_nil]
    | cons c cs =>
      rw [findAux]
      cases hm : matchAt (c :: cs) with
      | none => exact ih cs (pos + 1) (fun d hd => hs d (List.mem_cons_of_mem c hd))
      | some gr =>
        obtain ⟨g, rest⟩ := gr
        exact absurd rfl (hs cbr (matchAt_has_cbr hm))

theorem findMatches_no_cbr {s : List Char} (hs : ∀ c ∈ s, c ≠ cbr) :
    findMatches s = [] :=
  findAux_no_cbr s.length s 0 hs

theorem findAux_group :
    ∀ (f : Nat) (s : List Char) (pos : Nat) (m : Nat × Nat × List Char),
      m ∈ findAux f s pos → ∃ t rest, matchAt t = some (m.2.2, rest) := by
  intro f
  induction f with
  | zero => intro s pos m hm; simp [findAux] at hm
  | succ f ih =>
    intro s pos m hm
    cases s with
    | nil => rw [findAux_nil] at hm; simp at hm
    | cons c cs =>
      rw [findAux] at hm
      cases hmt : matchAt (c :: cs) with
      | none =>
        rw [hmt] at hm
        exact ih cs (pos + 1) m hm
      | some gr =>
        obtain ⟨g, rest⟩ := gr
        rw [hmt] at hm
        rcases List.mem_cons.mp hm with hm | hm
        · exact ⟨c :: cs, rest, by rw [hm]; exact hmt⟩
        · exact ih rest _ m hm

/-! ### Lemmas about `pySplit`, `pyStrip` and `parseIcons` -/

theorem pySplitAux_ne_nil (sh : Char) (st : List Char) :
    ∀ (f : Nat) (s acc : List Char), pySplitAux sh st f s acc ≠ [] := by
  intro f
  induction f with
  | zero => intro s acc; cases s <;> simp [pySplitAux]
  | succ f ih =>
    intro s acc
    cases s with
    | nil => simp [pySplitAux]
    | cons c cs =>
      rw [pySplitAux]
      split
      · simp
      · exact ih cs (c :: acc)

theorem containsSub_split_ge2 (sh : Char) (st : List Char) :
    ∀ (f : Nat) (s acc : List Char), s.length ≤ f →
      containsSub (sh :: st) s = true →
      2 ≤ (pySplitAux sh st f s acc).length := by
  intro f
  induction f with
  | zero =>
    intro s acc hf hc
    cases s with
    | nil => simp [containsSub] at hc
    | cons c cs => simp at hf
  | succ f ih =>
    intro s acc hf hc
    cases s with
    | nil => simp [containsSub] at hc
    | cons c cs =>
      rw [pySplitAux]
      split
      · rename_i hp
        have := pySplitAux_ne_nil sh st f (cs.drop st.length) []
        cases hx : pySplitAux sh st f (cs.drop st.length) [] with
        | nil => exact absurd hx this
        | cons y ys => simp [hx]
      · rename_i hp
        have hc2 : containsSub (sh :: st) cs = true := by
          simp only [containsSub, Bool.or_eq_true] at hc
          rcases hc with hc | hc
          · exact absurd hc (by simpa using hp)
          · exact hc
        exact ih cs (c :: acc) (by simp at hf; omega) hc2

theorem not_containsSub_split (sh : Char) (st : List Char) :
    ∀ (f : Nat) (s acc : List Char), s.length ≤ f →
      containsSub (sh :: st) s = false →
      pySplitAux sh st f s acc = [acc.reverse ++ s] := by
  intro f
  induction f with
  | zero =>
    intro s acc hf _
    cases s with
    | nil => simp [pySplitAux]
    | cons c cs => simp at hf
  | succ f ih =>
    intro s acc hf hc
    cases s with
    | nil => simp [pySplitAux]
    | cons c cs =>
      simp only [containsSub, Bool.or_eq_false_iff] at hc
      rw [pySplitAux, if_neg (by simp [hc.1])]
      rw [ih cs (c :: acc) (by simp at hf; omega) hc.2]
      simp

theorem contains_pySplit_ge2 {i : List Char} (h : containsSub sepAs i = true) :
    2 ≤ (pySplit sepAs i).length := by
  have hsep : sepAs = ' ' :: ['a', 's', ' '] := rfl
  rw [hsep] at h ⊢
  exact containsSub_split_ge2 ' ' ['a', 's', ' '] i.length i [] (Nat.le_refl _) h

theorem not_contains_pySplit {i : List Char} (h : containsSub sepAs i = false) :
    pySplit sepAs i = [i] := by
  have hsep : sepAs = ' ' :: ['a', 's', ' '] := rfl
  rw [hsep] at h ⊢
  rw [show pySplit (' ' :: ['a', 's', ' ']) i
      = pySplitAux ' ' ['a', 's', ' '] i.length i [] from rfl]
  rw [not_containsSub_split ' ' ['a', 's', ' '] i.length i [] (Nat.le_refl _) h]
  simp

theorem pySplitAux_chars (sh : Char) (st : List Char) :
    ∀ (f : Nat) (s acc p : List Char), p ∈ pySplitAux sh st f s acc →
      ∀ c ∈ p, c ∈ s ∨ c ∈ acc := by
  intro f
  induction f with
  | zero =>
    intro s acc p hp c hc
    cases s with
    | nil =>
      simp only [pySplitAux, List.mem_singleton] at hp
      right; rw [hp] at hc; simpa using hc
    | cons d ds =>
      simp only [pySplitAux, List.mem_singleton] at hp
      right; rw [hp] at hc; simpa using hc
  | succ f ih =>
    intro s acc p hp c hc
    cases s with
    | nil =>
      simp only [pySplitAux, List.mem_singleton] at hp
      right; rw [hp] at hc; simpa using hc
    | cons d ds =>
      rw [pySplitAux] at hp
      split at hp
      · rcases List.mem_cons.mp hp with hp | hp
        · right; rw [hp] at hc; simpa using hc
        · rcases ih (ds.drop st.length) [] p hp c hc with h | h
          · left
            exact List.mem_cons_of_mem d ((List.drop_sublist st.length ds).mem h)
          · simp at h
      · rcases ih ds (d :: acc) p hp c hc with h | h
        · left; exact List.mem_cons_of_mem d h
        · rcases List.mem_cons.mp h with h | h
          · left; rw [h]; exact List.mem_cons_self d ds
          · right; exact h

theorem pyStrip_subset {s : List Char} {c : Char} (h : c ∈ pyStrip s) : c ∈ s := by
  unfold pyStrip at h
  rw [List.mem_reverse] at h
  have h2 := (List.dropWhile_sublist pySpace).mem h
  rw [List.mem_reverse] at h2
  exact (List.dropWhile_sublist pySpace).mem h2

theorem pySplit_comma_chars {g p : List Char} (hp : p ∈ pySplit [','] g) :
    ∀ c ∈ p, c ∈ g := by
  intro c hc
  rcases pySplitAux_chars ',' [] g.length g [] p hp c hc with h | h
  · exact h
  · simp at h

theorem parseIcons_chars {g i : List Char} (hi : i ∈ parseIcons g) :
    ∀ c ∈ i, c ∈ g := by
  intro c hc
  unfold parseIcons at hi
  have hi2 := List.mem_of_mem_filter hi
  obtain ⟨p, hp, hps⟩ := List.mem_map.mp hi2
  rw [← hps] at hc
  exact pySplit_comma_chars hp c (pyStrip_subset hc)

theorem pyStrip_all_space {s : List Char} (h : ∀ c ∈ s, pySpace c = true) :
    pyStrip s = [] := by
  unfold pyStrip
  rw [List.dropWhile_eq_nil_iff.mpr h]
  rfl

theorem pySplitAux_comma_space :
    ∀ (f : Nat) (s acc : List Char),
      (∀ c ∈ s, pySpace c = true ∨ c = ',') →
      (∀ c ∈ acc, pySpace c = true) →
      ∀ p ∈ pySplitAux ',' [] f s acc, ∀ c ∈ p, pySpace c = true := by
  intro f
  induction f with
  | zero =>
    intro s acc _ hacc p hp c hc
    cases s with
    | nil =>
      simp only [pySplitAux, List.mem_singleton] at hp
      rw [hp] at hc
      exact hacc c (by simpa using hc)
    | cons d ds =>
      simp only [pySplitAux, List.mem_singleton] at hp
      rw [hp] at hc
      exact hacc c (by simpa using hc)
  | succ f ih =>
    intro s acc hs hacc p hp c hc
    cases s with
    | nil =>
      simp only [pySplitAux, List.mem_singleton] at hp
      rw [hp] at hc
      exact hacc c (by simpa using hc)
    | cons d ds =>
      rw [pySplitAux] at hp
      split at hp
      · rcases List.mem_cons.mp hp with hp | hp
        · rw [hp] at hc
          exact hacc c (by simpa using hc)
        · have hds : ∀ e ∈ ds.drop 0, pySpace e = true ∨ e = ',' := by
            intro e he
            exact hs e (List.mem_cons_of_mem d (by simpa using he))
          exact ih (ds.drop 0) [] (by simpa using hds) (by simp) p (by simpa using hp) c hc
      · rename_i hpre
        have hd : pySpace d = true := by
          rcases hs d (List.mem_cons_self d ds) with h | h
          · exact h
          · exact absurd (by simp [h, List.isPrefixOf]) hpre
        exact ih ds (d :: acc)
          (fun e he => hs e (List.mem_cons_of_mem d he))
          (by
            intro e he
            rcases List.mem_cons.mp he with he | he
            · rw [he]; exact hd
            · exact hacc e he)
          p hp c hc

theorem parseIcons_nil {block : List Char}
    (h : ∀ c ∈ block, pySpace c = true ∨ c = ',') : parseIcons block = [] := by
  unfold parseIcons
  rw [List.filter_eq_nil_iff]
  intro i hi
  obtain ⟨p, hp, hps⟩ := List.mem_map.mp hi
  have : ∀ c ∈ p, pySpace c = true :=
    pySplitAux_comma_space block.length block [] h (by simp) p hp
  rw [← hps, pyStrip_all_space this]
  simp

theorem pySplitAux_comma_append :
    ∀ (f : Nat) (raw acc : List Char), raw.length ≤ f →
      pySplitAux ',' [] (f + 1) (raw ++ [',']) acc
        = pySplitAux ',' [] f raw acc ++ [[]] := by
  intro f
  induction f with
  | zero =>
    intro raw acc hf
    have : raw = [] := List.length_eq_zero.mp (Nat.le_zero.mp hf)
    subst this
    simp [pySplitAux, List.isPrefixOf]
  | succ f ih =>
    intro raw acc hf
    cases raw with
    | nil => simp [pySplitAux, List.isPrefixOf]
    | cons c cs =>
      by_cases hc : c = ','
      · subst hc
        rw [List.cons_append, pySplitAux, if_pos (by simp [List.isPrefixOf])]
        rw [pySplitAux, if_pos (by simp [List.isPrefixOf])]
        simp only [List.length_nil, List.drop_zero]
        rw [ih cs [] (by simp at hf; omega)]
        simp
      · rw [List.cons_append, pySplitAux,
          if_neg (by simp [List.isPrefixOf]; exact fun h => hc h.symm)]
        rw [pySplitAux, if_neg (by simp [List.isPrefixOf]; exact fun h => hc h.symm)]
        exact ih cs (c :: acc) (by simp at hf; omega)

theorem pySplit_comma_append (raw : List Char) :
    pySplit [','] (raw ++ [',']) = pySplit [','] raw ++ [[]] := by
  show pySplitAux ',' [] (raw ++ [',']).length (raw ++ [',']) []
      = pySplitAux ',' [] raw.length raw [] ++ [[]]
  rw [List.length_append, List.length_singleton]
  exact pySplitAux_comma_append raw.length raw [] (Nat.le_refl _)

/-! ### Lemmas about rendering -/

theorem renderIcon_ok {i : List Char} (h : (pySplit sepAs i).length ≤ 2) :
    ∃ r, renderIcon i = .ok r := by
  unfold renderIcon
  cases hc : containsSub sepAs i with
  | false => exact ⟨mkLine i i, by simp⟩
  | true =>
    have h2 := contains_pySplit_ge2 hc
    have : (pySplit sepAs i).length = 2 := Nat.le_antisymm h h2
    match hsp : pySplit sepAs i, this with
    | [o, a], _ => exact ⟨mkLine (pyStrip a) (pyStrip o), by simp [hsp]⟩

theorem renderAll_ok {l : List (List Char)}
    (h : ∀ i ∈ l, ∃ r, renderIcon i = .ok r) :
    ∃ ls, renderAll l = .ok ls := by
  induction l with
  | nil => exact ⟨[], rfl⟩
  | cons i is ih =>
    obtain ⟨r, hr⟩ := h i (List.mem_cons_self i is)
    obtain ⟨ls, hls⟩ := ih (fun j hj => h j (List.mem_cons_of_mem i hj))
    exact ⟨r :: ls, by rw [renderAll, hr, hls]⟩

theorem renderAll_mem {l : List (List Char)} {ls : List (List Char)}
    (h : renderAll l = .ok ls) :
    ∀ x ∈ ls, ∃ i ∈ l, renderIcon i = .ok x := by
  induction l generalizing ls with
  | nil =>
    cases h
    intro x hx
    simp at hx
  | cons i is ih =>
    rw [renderAll] at h
    cases hr : renderIcon i with
    | error u => rw [hr] at h; exact absurd h (by simp)
    | ok r =>
      cases hrs : renderAll is with
      | error u => rw [hr, hrs] at h; exact absurd h (by simp)
      | ok rs =>
        rw [hr, hrs] at h
        cases h
        intro x hx
        rcases List.mem_cons.mp hx with hx | hx
        · exact ⟨i, List.mem_cons_self i is, by rw [hr, hx]⟩
        · obtain ⟨j, hj, hjx⟩ := ih hrs x hx
          exact ⟨j, List.mem_cons_of_mem i hj, hjx⟩

theorem renderBlock_ok {g : List Char}
    (h : ∀ i ∈ parseIcons g, (pySplit sepAs i).length ≤ 2) :
    ∃ r, renderBlock g = .ok r := by
  obtain ⟨ls, hls⟩ := renderAll_ok (fun i hi => renderIcon_ok (h i hi))
  exact ⟨pyJoin [nlc] ls, by rw [renderBlock, hls]⟩

theorem applyRev_ok {ms : List (Nat × Nat × List Char)}
    (h : ∀ m ∈ ms, ∃ r, renderBlock m.2.2 = .ok r) :
    ∀ cur, ∃ out, applyRev cur ms = .ok out := by
  induction ms with
  | nil => exact fun cur => ⟨cur, rfl⟩
  | cons m rest ih =>
    intro cur
    obtain ⟨a, b, g⟩ := m
    obtain ⟨r, hr⟩ := h (a, b, g) (List.mem_cons_self _ _)
    obtain ⟨out, hout⟩ := ih (fun m hm => h m (List.mem_cons_of_mem _ hm)) (spliceOne cur a b r)
    refine ⟨out, ?_⟩
    rw [applyRev, hr]
    exact hout

/-! ### Statements of the matched shape, built from parts -/

theorem pkgLit_quote_free : ∀ c ∈ pkgLit, c ≠ sqc ∧ c ≠ dqc := by decide

theorem expectQuote_after_pkg_ne {pkg tail s10 : List Char} {q2 : Char}
    (hp : pkg ≠ pkgLit) (hpkg : ∀ c ∈ pkg, c ≠ sqc ∧ c ≠ dqc)
    (hq2 : q2 = sqc ∨ q2 = dqc)
    (h : expectLit pkgLit (pkg ++ q2 :: tail) = some s10) :
    expectQuote s10 = none := by
  have heq : pkg ++ q2 :: tail = pkgLit ++ s10 := expectLit_eq h
  rcases List.append_eq_append_iff.mp heq with ⟨t, ht1, ht2⟩ | ⟨t, ht1, ht2⟩
  · cases t with
    | nil => exact absurd (by simpa using ht1.symm) hp
    | cons th tt =>
      rw [List.cons_append] at ht2
      injection ht2 with hth _
      have hmem : th ∈ pkgLit := by rw [ht1]; simp
      obtain ⟨hn1, hn2⟩ := pkgLit_quote_free th hmem
      rw [← hth] at hn1 hn2
      rcases hq2 with hq | hq
      · exact absurd hq hn1
      · exact absurd hq hn2
  · cases t with
    | nil => exact absurd (by simpa using ht1) hp
    | cons th tt =>
      have hs10 : s10 = th :: (tt ++ q2 :: tail) := by
        rw [ht2, List.cons_append]
      have hmem : th ∈ pkg := by rw [ht1]; simp
      obtain ⟨h1, h2⟩ := hpkg th hmem
      rw [hs10]
      simp [expectQuote, h1, h2]

theorem head_not_space {x : List Char} {d : Char} (hd : pySpace d = false) :
    ∀ c, ((d :: x).head? = some c) → pySpace c = false := by
  intro c hc
  rw [List.head?_cons, Option.some.injEq] at hc
  exact hc ▸ hd

theorem matchAt_mkStmt {w1 w2 w3 sym pkg : List Char} {q1 q2 : Char} {semi : Bool}
    (hw1 : w1 ≠ []) (hw1s : ∀ c ∈ w1, pySpace c = true)
    (hw2 : w2 ≠ []) (hw2s : ∀ c ∈ w2, pySpace c = true)
    (hw3 : w3 ≠ []) (hw3s : ∀ c ∈ w3, pySpace c = true)
    (hsym : sym ≠ []) (hsymb : ∀ c ∈ sym, c ≠ cbr)
    (hq1 : q1 = sqc ∨ q1 = dqc) (hq2 : q2 = sqc ∨ q2 = dqc)
    (hpkg : ∀ c ∈ pkg, c ≠ sqc ∧ c ≠ dqc) :
    matchAt (mkStmt w1 w2 w3 sym pkg q1 q2 semi)
      = if pkg = pkgLit then some (sym, []) else none := by
  have hq1s : pySpace q1 = false := by
    rcases hq1 with h | h <;> rw [h] <;> decide
  have h1 : expectLit importLit (mkStmt w1 w2 w3 sym pkg q1 q2 semi)
      = some (w1 ++ (obr :: (sym ++ (cbr :: (w2 ++ (fromLit ++ (w3 ++ (q1 ::
          (pkg ++ (q2 :: (if semi then [';'] else []))))))))))) := by
    rw [mkStmt]; exact expectLit_append _ _
  have h2 := expectSpaces_append (r := obr :: (sym ++ (cbr :: (w2 ++ (fromLit ++ (w3 ++ (q1 ::
      (pkg ++ (q2 :: (if semi then [';'] else []))))))))))
    hw1 hw1s (head_not_space (by decide))
  have h6 := expectSpaces_append (r := fromLit ++ (w3 ++ (q1 ::
      (pkg ++ (q2 :: (if semi then [';'] else []))))))
    hw2 hw2s (by
      intro c hc
      simp only [fromLit, List.cons_append, List.head?_cons, Option.some.injEq] at hc
      rw [← hc]; decide)
  have h8 := expectSpaces_append (r := q1 :: (pkg ++ (q2 :: (if semi then [';'] else []))))
    hw3 hw3s (head_not_space hq1s)
  simp only [matchAt, Option.bind_eq_bind]
  rw [h1, Option.some_bind]
  rw [h2, Option.some_bind]
  rw [expectChar_cons obr, Option.some_bind]
  rw [expectGroup_append hsym hsymb, Option.some_bind]
  rw [expectChar_cons cbr, Option.some_bind]
  rw [h6, Option.some_bind]
  rw [expectLit_append fromLit, Option.some_bind]
  rw [h8, Option.some_bind]
  rw [expectQuote_cons _ hq1, Option.some_bind]
  by_cases hp : pkg = pkgLit
  · subst hp
    rw [if_pos rfl]
    rw [expectLit_append pkgLit, Option.some_bind]
    rw [expectQuote_cons _ hq2, Option.some_bind]
    cases semi <;> simp [expectSemi]
  · rw [if_neg hp]
    cases hpre : expectLit pkgLit (pkg ++ (q2 :: (if semi then [';'] else []))) with
    | none => rfl
    | some s10 =>
      rw [Option.some_bind, expectQuote_after_pkg_ne hp hpkg hq2 hpre]
      rfl

/-! ### No-match and brace-freedom lemmas for the rewrite -/

theorem refactorIcons_of_no_match {content : List Char}
    (h : findMatches content = []) :
    refactorIcons content = .ok (content, false) := by
  unfold refactorIcons refactorContent
  rw [h]
  simp

theorem mkLine_no_cbr {b o : List Char}
    (hb : ∀ c ∈ b, c ≠ cbr) (ho : ∀ c ∈ o, c ≠ cbr) :
    ∀ c ∈ mkLine b o, c ≠ cbr := by
  have h1 : ∀ c ∈ importSpace, c ≠ cbr := by decide
  have h2 : ∀ c ∈ fromQuote, c ≠ cbr := by decide
  have h3 : ∀ c ∈ pkgLit, c ≠ cbr := by decide
  have h4 : ∀ c ∈ mjsEnd, c ≠ cbr := by decide
  intro c hc
  simp only [mkLine, List.mem_append] at hc
  rcases hc with ((((hc | hc) | hc) | hc) | hc) | hc
  · exact h1 c hc
  · exact hb c hc
  · exact h2 c hc
  · exact h3 c hc
  · exact ho c hc
  · exact h4 c hc

theorem pySplit_sepAs_chars {i p : List Char} (hp : p ∈ pySplit sepAs i) :
    ∀ c ∈ p, c ∈ i := by
  intro c hc
  have hsep : sepAs = ' ' :: ['a', 's', ' '] := rfl
  rw [hsep] at hp
  rcases pySplitAux_chars ' ' ['a', 's', ' '] i.length i [] p hp c hc with h | h
  · exact h
  · simp at h

theorem renderIcon_no_cbr {i l : List Char} (hi : ∀ c ∈ i, c ≠ cbr)
    (h : renderIcon i = .ok l) : ∀ c ∈ l, c ≠ cbr := by
  unfold renderIcon at h
  split at h
  · split at h
    · rename_i orig al hsp
      cases h
      refine mkLine_no_cbr ?_ ?_
      · intro c hc
        have hal : al ∈ pySplit sepAs i := by rw [hsp]; simp
        exact hi c (pySplit_sepAs_chars hal c (pyStrip_subset hc))
      · intro c hc
        have horig : orig ∈ pySplit sepAs i := by rw [hsp]; simp
        exact hi c (pySplit_sepAs_chars horig c (pyStrip_subset hc))
    · exact absurd h (by simp)
  · cases h
    exact mkLine_no_cbr hi hi

theorem pyJoin_no_cbr {lines : List (List Char)}
    (h : ∀ l ∈ lines, ∀ c ∈ l, c ≠ cbr) :
    ∀ c ∈ pyJoin [nlc] lines, c ≠ cbr := by
  induction lines with
  | nil => intro c hc; simp [pyJoin] at hc
  | cons l ls ih =>
    cases ls with
    | nil =>
      intro c hc
      exact h l (by simp) c (by simpa [pyJoin] using hc)
    | cons l2 ls2 =>
      have heq : pyJoin [nlc] (l :: l2 :: ls2)
          = l ++ [nlc] ++ pyJoin [nlc] (l2 :: ls2) := rfl
      intro c hc
      rw [heq] at hc
      simp only [List.mem_append, List.mem_singleton] at hc
      rcases hc with (hc | hc) | hc
      · exact h l (by simp) c hc
      · rw [hc]; decide
      · exact ih (fun l' hl' => h l' (List.mem_cons_of_mem l hl')) c hc

/-! ### The driver loop -/

theorem driveAux_spec :
    ∀ (fs : List SrcFile) (out0 : List (List Char)) (n0 : Nat)
      (res : List (List Char)) (m : Nat),
      driveAux fs out0 n0 = .ok (res, m) →
      res = out0 ++ (modifiedFiles fs).map (fun f => refLine f.path)
        ∧ m = n0 + (modifiedFiles fs).length := by
  intro fs
  induction fs with
  | nil =>
    intro out0 n0 res m h
    rw [driveAux] at h
    injection h with h
    injection h with h1 h2
    subst h1
    subst h2
    simp [modifiedFiles]
  | cons f fs ih =>
    intro out0 n0 res m h
    rw [driveAux] at h
    by_cases hc : isCandidate f.name
    · rw [if_pos hc] at h
      cases hri : refactorIcons f.content with
      | error u => rw [hri] at h; exact absurd h (by simp)
      | ok p =>
        obtain ⟨c', b⟩ := p
        rw [hri] at h
        cases b
        · have hpred : (isCandidate f.name && changedOf f.content) = false := by
            simp [changedOf, hri]
          have hmf : modifiedFiles (f :: fs) = modifiedFiles fs := by
            simp [modifiedFiles, List.filter_cons, hpred]
          rw [hmf]
          exact ih out0 n0 res m h
        · have hpred : (isCandidate f.name && changedOf f.content) = true := by
            simp [hc, changedOf, hri]
          have hmf : modifiedFiles (f :: fs) = f :: modifiedFiles fs := by
            simp [modifiedFiles, List.filter_cons, hpred]
          obtain ⟨h1, h2⟩ := ih (out0 ++ [refLine f.path]) (n0 + 1) res m h
          rw [hmf]
          constructor
          · rw [h1]; simp
          · rw [h2]; simp; omega
    · rw [if_neg hc] at h
      have hpred : (isCandidate f.name && changedOf f.content) = false := by
        simp [hc]
      have hmf : modifiedFiles (f :: fs) = modifiedFiles fs := by
        simp [modifiedFiles, List.filter_cons, hpred]
      rw [hmf]
      exact ih out0 n0 res m h

/-! ### The claims -/

/-- C6: for all input content containing zero qualifying bulk import
statements, the rewrite returns the content byte-for-byte unchanged and
reports `changed = false`. -/
theorem C6_no_match_unchanged {content : List Char}
    (h : findMatches content = []) :
    refactorIcons content = .ok (content, false) :=
  refactorIcons_of_no_match h

theorem C6_witness :
    refactorIcons "const x = 1;".toList = .ok ("const x = 1;".toList, false) :=
  C6_no_match_unchanged (by decide)

/-- C7: a statement of the shape `import ... symbol-list ... from
"package"` (built from whitespace runs, a non-empty brace-free symbol list,
quote characters and an optional semicolon) is recognized if and only if
the package literal is exactly `@tabler/icons-react`; recognition is the
same for single or double quotes on either side, for any whitespace runs
(which may contain newlines, so the braces may span lines), and with or
without the trailing semicolon. -/
theorem C7_matching_tolerance
    {w1 w2 w3 sym pkg : List Char} {q1 q2 : Char} {semi : Bool}
    (hw1 : w1 ≠ []) (hw1s : ∀ c ∈ w1, pySpace c = true)
    (hw2 : w2 ≠ []) (hw2s : ∀ c ∈ w2, pySpace c = true)
    (hw3 : w3 ≠ []) (hw3s : ∀ c ∈ w3, pySpace c = true)
    (hsym : sym ≠ []) (hsymb : ∀ c ∈ sym, c ≠ cbr)
    (hq1 : q1 = sqc ∨ q1 = dqc) (hq2 : q2 = sqc ∨ q2 = dqc)
    (hpkg : ∀ c ∈ pkg, c ≠ sqc ∧ c ≠ dqc) :
    matchAt (mkStmt w1 w2 w3 sym pkg q1 q2 semi) = some (sym, [])
      ↔ pkg = pkgLit := by
  rw [matchAt_mkStmt hw1 hw1s hw2 hw2s hw3 hw3s hsym hsymb hq1 hq2 hpkg]
  by_cases hp : pkg = pkgLit
  · simp [hp]
  · simp [hp]

theorem C7_witness :
    matchAt (mkStmt ['\n'] [' ', '\n'] [' '] " IconX ".toList pkgLit dqc sqc false)
        = some (" IconX ".toList, [])
      ∧ matchAt (mkStmt [' '] [' '] [' '] " IconX ".toList "other-package".toList sqc sqc true)
        = none := by
  constructor
  · exact (C7_matching_tolerance (by decide) (by decide) (by decide) (by decide)
      (by decide) (by decide) (by decide) (by decide)
      (Or.inr rfl) (Or.inl rfl) pkgLit_quote_free).mpr rfl
  · rfl

/-- C8: the raw symbol list is split on commas, each piece is trimmed, and
empty pieces are discarded: appending a trailing comma to a symbol list
leaves the parsed icon list unchanged, and every parsed piece is non-empty,
so a trailing comma never yields an empty import line. -/
theorem C8_trailing_comma (raw : List Char) :
    parseIcons (raw ++ [',']) = parseIcons raw
      ∧ ∀ i ∈ parseIcons raw, i ≠ [] := by
  constructor
  · unfold parseIcons
    rw [pySplit_comma_append raw, List.map_append, List.filter_append]
    simp [pyStrip]
  · intro i hi
    have := (List.mem_filter.mp hi).2
    simpa using this

theorem C8_witness :
    parseIcons (" IconA, IconB ".toList ++ [','])
        = parseIcons " IconA, IconB ".toList
      ∧ "IconA".toList ≠ [] :=
  ⟨(C8_trailing_comma " IconA, IconB ".toList).1,
   (C8_trailing_comma " IconA, IconB ".toList).2 "IconA".toList (by decide)⟩

/-- C9: when the brace content of a qualifying statement consists only of
whitespace and commas, the parsed icon list is empty, so the whole matched
statement is replaced by the empty string, deleting the import, and the
rewrite reports `changed = true`. -/
theorem C9_empty_symbol_list {sym : List Char} (hne : sym ≠ [])
    (hsp : ∀ c ∈ sym, pySpace c = true ∨ c = ',') :
    refactorIcons (mkStmt [' '] [' '] [' '] sym pkgLit sqc sqc true)
      = .ok ([], true) := by
  have hsymb : ∀ c ∈ sym, c ≠ cbr := by
    intro c hc
    rcases hsp c hc with h | h
    · intro he; rw [he] at h; exact absurd h (by decide)
    · rw [h]; decide
  have hm := @matchAt_mkStmt [' '] [' '] [' '] sym pkgLit sqc sqc true
    (by decide) (by decide) (by decide) (by decide) (by decide) (by decide)
    hne hsymb (Or.inl rfl) (Or.inl rfl) pkgLit_quote_free
  rw [if_pos rfl] at hm
  have hfm := findMatches_single hm
  have hrb : renderBlock sym = .ok [] := by
    unfold renderBlock
    rw [parseIcons_nil hsp]
    rfl
  have hcne : mkStmt [' '] [' '] [' '] sym pkgLit sqc sqc true ≠ [] := by
    simp [mkStmt, importLit]
  have happ : applyRev (mkStmt [' '] [' '] [' '] sym pkgLit sqc sqc true)
      [(0, (mkStmt [' '] [' '] [' '] sym pkgLit sqc sqc true).length, sym)]
      = .ok [] := by
    rw [applyRev, hrb]
    show applyRev (spliceOne _ 0 _ []) [] = .ok []
    rw [show spliceOne (mkStmt [' '] [' '] [' '] sym pkgLit sqc sqc true) 0
        (mkStmt [' '] [' '] [' '] sym pkgLit sqc sqc true).length [] = [] from by
      simp [spliceOne]]
    rfl
  unfold refactorIcons refactorContent
  rw [hfm]
  show (match applyRev _ ([(0, _, sym)]).reverse with
    | .ok new => Except.ok (new, decide (new ≠ _)) | .error u => .error u) = _
  rw [List.reverse_singleton, happ]
  show Except.ok ([], decide (([] : List Char) ≠ _)) = _
  rw [decide_eq_true (Ne.symm hcne)]

theorem C9_witness :
    refactorIcons (mkStmt [' '] [' '] [' '] " , ".toList pkgLit sqc sqc true)
      = .ok ([], true) :=
  C9_empty_symbol_list (by decide) (by decide)

/-- C3 counterexample: the piece `A as B as C` contains the separator
` as ` but the rewrite raises instead of splitting on the first occurrence
and emitting an import line for alias `B as C`. -/
theorem C3_counterexample :
    renderIcon "A as B as C".toList = .error ()
      ∧ renderIcon "A as B as C".toList
          ≠ .ok (mkLine "B as C".toList "A".toList) := by
  refine ⟨rfl, ?_⟩
  rw [show renderIcon "A as B as C".toList = .error () from rfl]
  exact fun h => Except.noConfusion h

/-- C3 amended: a piece in which ` as ` occurs exactly once (the split has
exactly two parts) is split into (original, alias), both trimmed, and the
emitted line binds the alias while building the module path from the
original name; a piece with no ` as ` uses the whole piece for both; a
piece in which ` as ` occurs more than once (three or more split parts)
raises instead of splitting on the first occurrence. -/
theorem C3_alias_parsing (icon o a : List Char) :
    (containsSub sepAs icon = true → pySplit sepAs icon = [o, a] →
      renderIcon icon = .ok (mkLine (pyStrip a) (pyStrip o)))
    ∧ (containsSub sepAs icon = false →
      renderIcon icon = .ok (mkLine icon icon))
    ∧ (3 ≤ (pySplit sepAs icon).length → renderIcon icon = .error ()) := by
  refine ⟨?_, ?_, ?_⟩
  · intro hc hsp
    simp [renderIcon, hc, hsp]
  · intro hc
    simp [renderIcon, hc]
  · intro h3
    by_cases hc : containsSub sepAs icon = true
    · rcases hl : pySplit sepAs icon with _ | ⟨x, _ | ⟨y, _ | ⟨z, t⟩⟩⟩
      · rw [hl] at h3; simp at h3
      · rw [hl] at h3; simp at h3
      · rw [hl] at h3; simp at h3
      · simp [renderIcon, hc, hl]
    · have hc' : containsSub sepAs icon = false := by
        simpa using hc
      rw [not_contains_pySplit hc'] at h3
      simp at h3

theorem C3_witness :
    renderIcon " IconUser as UserIcon".toList
        = .ok (mkLine "UserIcon".toList "IconUser".toList)
      ∧ renderIcon "IconHome".toList
        = .ok (mkLine "IconHome".toList "IconHome".toList)
      ∧ renderIcon "A as B as C".toList = .error () := by
  refine ⟨?_, ?_, ?_⟩
  · have h := (C3_alias_parsing " IconUser as UserIcon".toList
      " IconUser".toList "UserIcon".toList).1 (by decide) (by decide)
    rw [h]
    rfl
  · exact (C3_alias_parsing "IconHome".toList [] []).2.1 (by decide)
  · exact (C3_alias_parsing "A as B as C".toList [] []).2.2 (by decide)

/-- C2 counterexample: a qualifying statement whose symbol piece is
`A as B as C` makes the rewrite raise (the modelled `ValueError` of the
two-variable unpacking), so the rewrite does not complete on every input. -/
theorem C2_counterexample : refactorIcons doubleAliasContent = .error () := rfl

/-- C2 amended: the rewrite completes without raising whenever, in every
matched symbol list, each parsed piece splits on ` as ` into at most two
parts, i.e. no piece contains the separator ` as ` twice; a piece with
three or more parts raises. -/
theorem C2_no_exception (content : List Char)
    (h : ∀ m ∈ findMatches content, ∀ i ∈ parseIcons m.2.2,
      (pySplit sepAs i).length ≤ 2) :
    ∃ out, refactorIcons content = .ok out := by
  have hrc : ∃ newc, refactorContent content = .ok newc := by
    unfold refactorContent
    cases hfm : findMatches content with
    | nil => exact ⟨content, rfl⟩
    | cons m ms =>
      have hall : ∀ m' ∈ (m :: ms).reverse, ∃ r, renderBlock m'.2.2 = .ok r := by
        intro m' hm'
        rw [List.mem_reverse] at hm'
        exact renderBlock_ok (fun i hi => h m' (hfm.symm ▸ hm') i hi)
      obtain ⟨out, hout⟩ := applyRev_ok hall content
      exact ⟨out, hout⟩
  obtain ⟨newc, hnewc⟩ := hrc
  refine ⟨(newc, decide (newc ≠ content)), ?_⟩
  unfold refactorIcons
  rw [hnewc]

theorem C2_witness :
    ∃ out, refactorIcons scenarioInput = .ok out :=
  C2_no_exception scenarioInput (by decide)

/-- C1: evaluating the rewrite on the specification's concrete scenario
line.  The code's f-string omits the `/` separator, so the produced module
paths read `@tabler/icons-reactIconHome.mjs` instead of the claimed
`@tabler/icons-react/IconHome.mjs`: the actual output differs from the
output the claim requires. -/
theorem C1_code_evaluation :
    refactorContent scenarioInput = .ok scenarioActual
      ∧ scenarioActual ≠ scenarioClaimed := by
  exact ⟨rfl, by decide⟩

/-- C4 counterexample: round-trip idempotence fails.  On
`braceTrickContent` the first rewrite reports a change, and running the
rewrite again on its output reports `changed = true` once more: the
replacement text recombines with the surrounding context into a fresh
qualifying bulk-import match. -/
theorem C4_counterexample :
    secondChanged (refactorIcons braceTrickContent) = .ok true := rfl

/-- C4 amended: the per-symbol import lines emitted for any match the scan
produces never themselves match the bulk-import pattern — every captured
group comes from `[^}]+`, so the rendered block contains no closing brace
and cannot be matched: rewriting a rendered replacement block alone leaves
it unchanged with `changed = false`.  Full round-trip idempotence on
arbitrary content nevertheless fails (see the counterexample) because a
replacement can recombine with surrounding context into a fresh match. -/
theorem C4_emitted_lines_no_match {content : List Char}
    {m : Nat × Nat × List Char} {lines : List (List Char)}
    (hm : m ∈ findMatches content)
    (hra : renderAll (parseIcons m.2.2) = .ok lines) :
    refactorIcons (pyJoin [nlc] lines) = .ok (pyJoin [nlc] lines, false) := by
  obtain ⟨t, rest, hmat⟩ := findAux_group content.length content 0 m hm
  have hg : ∀ c ∈ m.2.2, c ≠ cbr := matchAt_group_no_cbr hmat
  have hline : ∀ l ∈ lines, ∀ c ∈ l, c ≠ cbr := by
    intro l hl
    obtain ⟨i, hi, hri⟩ := renderAll_mem hra l hl
    exact renderIcon_no_cbr (fun c hc => hg c (parseIcons_chars hi c hc)) hri
  exact refactorIcons_of_no_match (findMatches_no_cbr (pyJoin_no_cbr hline))

theorem C4_witness :
    refactorIcons (pyJoin [nlc]
        [mkLine "IconA".toList "IconA".toList, mkLine "B2".toList "IconB".toList])
      = .ok (pyJoin [nlc]
        [mkLine "IconA".toList "IconA".toList, mkLine "B2".toList "IconB".toList], false) :=
  @C4_emitted_lines_no_match
    (mkStmt [' '] [' '] [' '] " IconA, IconB as B2 ".toList pkgLit sqc sqc true)
    (0, 57, " IconA, IconB as B2 ".toList)
    [mkLine "IconA".toList "IconA".toList, mkLine "B2".toList "IconB".toList]
    (by decide) rfl

/-- C5: offset safety.  When a content has exactly two matches, the earlier
one ending before the later one starts (which the scan guarantees), the
rewrite splices each replacement over exactly the span of its own match:
the result is the text before the earlier match, its replacement, the text
between the two matches, the later replacement, and the text after the
later match — the earlier transformation is unaffected by the length change
of the later one. -/
theorem C5_offset_safety {content r1 r2 g1 g2 : List Char} {s1 e1 s2 e2 : Nat}
    (hfm : findMatches content = [(s1, e1, g1), (s2, e2, g2)])
    (hr1 : renderBlock g1 = .ok r1) (hr2 : renderBlock g2 = .ok r2) :
    e1 ≤ s2 ∧
      refactorContent content
        = .ok (content.take s1 ++ r1 ++ (content.take s2).drop e1
            ++ r2 ++ content.drop e2) := by
  have hch := findMatches_chained content
  rw [hfm] at hch
  obtain ⟨h0s1, hs1e1, he1len, hch2⟩ := hch
  obtain ⟨he1s2, hs2e2, he2len, _⟩ := hch2
  refine ⟨he1s2, ?_⟩
  unfold refactorContent
  rw [hfm]
  show applyRev content ([(s1, e1, g1), (s2, e2, g2)]).reverse = _
  have hrev : ([(s1, e1, g1), (s2, e2, g2)] : List (Nat × Nat × List Char)).reverse
      = [(s2, e2, g2), (s1, e1, g1)] := by simp
  rw [hrev, applyRev, hr2]
  show applyRev (spliceOne content s2 e2 r2) [(s1, e1, g1)] = _
  rw [applyRev, hr1]
  show Except.ok (spliceOne (spliceOne content s2 e2 r2) s1 e1 r1) = _
  congr 1
  unfold spliceOne
  have hlen2 : (content.take s2).length = s2 := by
    rw [List.length_take]
    omega
  have htk : (content.take s2 ++ (r2 ++ content.drop e2)).take s1
      = content.take s1 := by
    rw [List.take_append_of_le_length (by rw [hlen2]; omega), List.take_take]
    congr 1
    omega
  have hdp : (content.take s2 ++ (r2 ++ content.drop e2)).drop e1
      = (content.take s2).drop e1 ++ (r2 ++ content.drop e2) :=
    List.drop_append_of_le_length (by rw [hlen2]; omega)
  simp only [List.append_assoc]
  rw [htk, hdp]

theorem C5_witness :
    (68 : Nat) ≤ 80 ∧
      refactorContent twoImportContent
        = .ok (twoImportContent.take 13
            ++ (mkLine "IconA".toList "IconA".toList ++ [nlc]
              ++ mkLine "IconB".toList "IconB".toList)
            ++ (twoImportContent.take 80).drop 68
            ++ mkLine "IconC".toList "IconC".toList
            ++ twoImportContent.drop 124) :=
  @C5_offset_safety twoImportContent
    (mkLine "IconA".toList "IconA".toList ++ [nlc]
      ++ mkLine "IconB".toList "IconB".toList)
    (mkLine "IconC".toList "IconC".toList)
    "\n  IconA,\n  IconB,\n".toList " IconC ".toList
    13 68 80 124 (by decide) rfl rfl

/-- C10: driver reporting.  A file is processed iff its name ends in
`.tsx` or `.ts` (the filter of `modifiedFiles` uses exactly `isCandidate`);
when the run completes, the output is one `Refactored <path>` line per
modified candidate, in traversal order, followed by the single summary line
`Total refactored: <count>`, and the count equals the number of modified
files. -/
theorem C10_driver_report {files : List SrcFile} {out : List (List Char)} {n : Nat}
    (h : drive files = .ok (out, n)) :
    n = (modifiedFiles files).length
      ∧ out = (modifiedFiles files).map (fun f => refLine f.path)
          ++ [totalLine n] := by
  unfold drive at h
  cases hda : driveAux files [] 0 with
  | error u => rw [hda] at h; exact absurd h (by simp)
  | ok p =>
    obtain ⟨out0, n0⟩ := p
    rw [hda] at h
    rw [Except.ok.injEq, Prod.mk.injEq] at h
    obtain ⟨hout, hn⟩ := h
    obtain ⟨h1, h2⟩ := driveAux_spec files [] 0 out0 n0 hda
    subst hn
    constructor
    · rw [h2]
      omega
    · rw [← hout, h1]
      simp

theorem C10_witness :
    (1 : Nat) = (modifiedFiles demoFiles).length
      ∧ [refLine "ui/src/a.tsx".toList, totalLine 1]
        = (modifiedFiles demoFiles).map (fun f => refLine f.path)
            ++ [totalLine 1] :=
  C10_driver_report (by rfl)
